import Mathlib

/-!
Verification development for the PMC open-access bulk PDF retrieval pipeline
(`download.py`): identifier extraction and normalization, the OA resolution
client, the retrieval engine (direct PDF / TGZ archive routes), the retry
helper, and the orchestrator's ledger. Python strings are modelled as
`List Char` (ASCII model of `str.upper` / `str.lower` / `str.strip`), bytes
as `List Nat`, the filesystem slot at `<output-dir>/<ID>.pdf` as
`Option (List Nat)` (`none` = file absent), and network behaviour as
per-attempt outcome functions.
-/

/-- ASCII model of Python whitespace (as stripped by `str.strip`). -/
def isSpaceCh (c : Char) : Bool :=
  c = ' ' || c = '\t' || c = '\n' || c = '\r' || c = '\x0b' || c = '\x0c'

/-- ASCII model of Python `str.upper` on a single character. -/
def upChar (c : Char) : Char :=
  if c = 'a' then 'A' else if c = 'b' then 'B' else if c = 'c' then 'C' else
  if c = 'd' then 'D' else if c = 'e' then 'E' else if c = 'f' then 'F' else
  if c = 'g' then 'G' else if c = 'h' then 'H' else if c = 'i' then 'I' else
  if c = 'j' then 'J' else if c = 'k' then 'K' else if c = 'l' then 'L' else
  if c = 'm' then 'M' else if c = 'n' then 'N' else if c = 'o' then 'O' else
  if c = 'p' then 'P' else if c = 'q' then 'Q' else if c = 'r' then 'R' else
  if c = 's' then 'S' else if c = 't' then 'T' else if c = 'u' then 'U' else
  if c = 'v' then 'V' else if c = 'w' then 'W' else if c = 'x' then 'X' else
  if c = 'y' then 'Y' else if c = 'z' then 'Z' else c

/-- ASCII model of Python `str.lower` on a single character. -/
def downChar (c : Char) : Char :=
  if c = 'A' then 'a' else if c = 'B' then 'b' else if c = 'C' then 'c' else
  if c = 'D' then 'd' else if c = 'E' then 'e' else if c = 'F' then 'f' else
  if c = 'G' then 'g' else if c = 'H' then 'h' else if c = 'I' then 'i' else
  if c = 'J' then 'j' else if c = 'K' then 'k' else if c = 'L' then 'l' else
  if c = 'M' then 'm' else if c = 'N' then 'n' else if c = 'O' then 'o' else
  if c = 'P' then 'p' else if c = 'Q' then 'q' else if c = 'R' then 'r' else
  if c = 'S' then 's' else if c = 'T' then 't' else if c = 'U' then 'u' else
  if c = 'V' then 'v' else if c = 'W' then 'w' else if c = 'X' then 'x' else
  if c = 'Y' then 'y' else if c = 'Z' then 'z' else c

/-- Python `s.upper()` over a whole string. -/
def upperL (l : List Char) : List Char := l.map upChar

/-- Python `s.lower()` over a whole string. -/
def lowerL (l : List Char) : List Char := l.map downChar

/-- Python `s.strip()`: drop leading and trailing whitespace. -/
def stripList (l : List Char) : List Char :=
  ((l.dropWhile isSpaceCh).reverse.dropWhile isSpaceCh).reverse

/-- The lowercase ASCII alphabet, for finite case analysis on `upChar`. -/
def lowerAbc : List Char :=
  ['a','b','c','d','e','f','g','h','i','j','k','l','m',
   'n','o','p','q','r','s','t','u','v','w','x','y','z']

lemma upChar_not_lower (c : Char) (hc : c ∉ lowerAbc) : upChar c = c := by
  simp only [lowerAbc, List.mem_cons, List.not_mem_nil, or_false] at hc
  push_neg at hc
  obtain ⟨h1,h2,h3,h4,h5,h6,h7,h8,h9,h10,h11,h12,h13,h14,h15,h16,h17,h18,h19,h20,
    h21,h22,h23,h24,h25,h26⟩ := hc
  simp only [upChar, if_neg h1, if_neg h2, if_neg h3, if_neg h4, if_neg h5, if_neg h6,
    if_neg h7, if_neg h8, if_neg h9, if_neg h10, if_neg h11, if_neg h12, if_neg h13,
    if_neg h14, if_neg h15, if_neg h16, if_neg h17, if_neg h18, if_neg h19, if_neg h20,
    if_neg h21, if_neg h22, if_neg h23, if_neg h24, if_neg h25, if_neg h26]

lemma isSpaceCh_upChar (c : Char) : isSpaceCh (upChar c) = isSpaceCh c := by
  by_cases hc : c ∈ lowerAbc
  · fin_cases hc <;> decide
  · rw [upChar_not_lower c hc]

lemma isDigit_upChar (c : Char) : (upChar c).isDigit = c.isDigit := by
  by_cases hc : c ∈ lowerAbc
  · fin_cases hc <;> decide
  · rw [upChar_not_lower c hc]

lemma upChar_upChar (c : Char) : upChar (upChar c) = upChar c := by
  by_cases hc : c ∈ lowerAbc
  · fin_cases hc <;> decide
  · rw [upChar_not_lower c hc]
    exact upChar_not_lower c hc

/-- `strip` and `upper` commute (uppercasing never creates or destroys
whitespace), so the code's `pmcid.upper().strip()` agrees with the spec's
"stripped, upper-cased". -/
lemma stripList_upperL (l : List Char) : stripList (upperL l) = upperL (stripList l) := by
  have hfun : (isSpaceCh ∘ upChar) = isSpaceCh := funext isSpaceCh_upChar
  have hdw : ∀ m : List Char, (m.map upChar).dropWhile isSpaceCh
      = (m.dropWhile isSpaceCh).map upChar := by
    intro m
    rw [List.dropWhile_map, hfun]
  unfold stripList upperL
  rw [hdw, ← List.map_reverse, hdw, ← List.map_reverse]

/-- Fuel-driven model of Python `str.replace(pat, rep)`: replace every
non-overlapping occurrence of `pat`, scanning left to right. The fuel is
seeded with the string length, which always suffices; the `pat ≠ []` guard
only serves totality (the call sites use a fixed non-empty pattern). -/
def replaceAllGo (pat rep : List Char) : Nat → List Char → List Char
  | 0, s => s
  | _ + 1, [] => []
  | fuel + 1, c :: rest =>
    if pat ≠ [] ∧ pat.isPrefixOf (c :: rest) then
      rep ++ replaceAllGo pat rep fuel ((c :: rest).drop pat.length)
    else c :: replaceAllGo pat rep fuel rest

/-- Python `s.replace(pat, rep)` (all occurrences). -/
def replaceAll (pat rep s : List Char) : List Char := replaceAllGo pat rep s.length s

/-- Does `s` contain `pat` as a contiguous sublist? -/
def containsPat (pat : List Char) : List Char → Bool
  | [] => pat.isEmpty
  | c :: rest => pat.isPrefixOf (c :: rest) || containsPat pat rest

/-- The NCBI FTP host prefix rewritten by `_ftp_to_https`. -/
def ftpHost : List Char := "ftp://ftp.ncbi.nlm.nih.gov".data

/-- The HTTPS mirror prefix substituted by `_ftp_to_https`. -/
def httpsHost : List Char := "https://ftp.ncbi.nlm.nih.gov".data

/-- `_ftp_to_https` from `download.py`: if the url starts with the NCBI FTP
host, apply Python `str.replace` (which substitutes every occurrence);
otherwise return the url unchanged. -/
def _ftp_to_https (url : List Char) : List Char :=
  if ftpHost.isPrefixOf url then replaceAll ftpHost httpsHost url else url

/-- Modelled from the spec's words for comparison: rewrite exactly the
leading FTP-host prefix to the HTTPS mirror and keep the rest of the path
unchanged. -/
def specFtpToHttps (url : List Char) : List Char :=
  if ftpHost.isPrefixOf url then httpsHost ++ url.drop ftpHost.length else url

/-- The `MAX_RETRIES` constant of `download.py`. -/
def MAX_RETRIES : Nat := 3

/-- The `RETRY_SLEEP` constant of `download.py` (seconds). -/
def RETRY_SLEEP : Nat := 2

/-- The retry loop of `_http_get` over a sequence of per-attempt outcomes
`f` (attempt numbers start at 1; `.error` covers both transport failures and
the exception `raise_for_status` turns a non-2xx response into). Returns the
loop's result, the number of GET attempts performed, and the list of sleep
durations inserted between attempts. `remaining = maxRetries - attempt + 1`;
the `remaining = 0` base case is unreachable for `MAX_RETRIES = 3`. -/
def httpGo {α : Type} (f : Nat → Except String α) :
    Nat → Nat → String → Except String α × Nat × List Nat
  | _, 0, lastErr => (.error lastErr, 0, [])
  | attempt, remaining + 1, _ =>
    match f attempt with
    | .ok resp => (.ok resp, 1, [])
    | .error e =>
      match remaining with
      | 0 => (.error e, 1, [])
      | _ + 1 =>
        let nxt := httpGo f (attempt + 1) remaining e
        (nxt.1, nxt.2.1 + 1, RETRY_SLEEP :: nxt.2.2)

/-- `_http_get` from `download.py`: up to `MAX_RETRIES` attempts, sleeping
`RETRY_SLEEP` seconds between attempts, returning the first success or
raising the final attempt's error. -/
def _http_get {α : Type} (f : Nat → Except String α) :
    Except String α × Nat × List Nat :=
  httpGo f 1 MAX_RETRIES ""

/-- One `<link ...>` element inside the OA record: its `format` attribute
value and its `href` attribute value (href assumed present, as the code
dereferences it unconditionally). -/
structure XmlLink where
  fmt : String
  href : List Char
deriving DecidableEq

/-- A parsed `oa.fcgi` response body: the first `record` element (if any)
with its descendant `link` elements in document order. -/
structure OaDoc where
  record : Option (List XmlLink)
deriving DecidableEq

/-- `_parse_oa_record` from `download.py`: pick the first `link` with
`format='pdf'` and the first with `format='tgz'` inside the first `record`
element, rewrite their hrefs via `_ftp_to_https`; no `record` at all gives
`(none, none)` rather than an error. -/
def _parse_oa_record (doc : OaDoc) : Option (List Char) × Option (List Char) :=
  match doc.record with
  | none => (none, none)
  | some links =>
    let pdf_el := links.find? (fun l => l.fmt == "pdf")
    let tgz_el := links.find? (fun l => l.fmt == "tgz")
    (pdf_el.map (fun l => _ftp_to_https l.href), tgz_el.map (fun l => _ftp_to_https l.href))

/-- One member of the gzip-tar archive: name, recorded size, regular-file
flag, and the bytes `tf.extractfile` yields (`none` models `extractfile`
returning `None`). The Python sort key is `(m.size or 0)`; with `Nat` sizes
`or 0` is the identity, so the key is `size` itself. -/
structure Member where
  name : List Char
  size : Nat
  isFile : Bool
  content : Option (List Nat)
deriving DecidableEq

/-- `m.name.lower().endswith(".pdf")`. -/
def endsWithPdfLower (name : List Char) : Bool :=
  (".pdf".data).isSuffixOf (lowerL name)

/-- One step of a stable descending insertion sort on the recorded size,
modelling Python's stable `list.sort(key=..., reverse=True)`: an element is
placed before the first element whose size does not exceed it, so equal
sizes keep their first-encountered order. -/
def insertDesc (m : Member) : List Member → List Member
  | [] => [m]
  | x :: xs => if x.size ≤ m.size then m :: x :: xs else x :: insertDesc m xs

/-- Stable sort by recorded size, descending. -/
def sortDescBySize (l : List Member) : List Member := l.foldr insertDesc []

/-- `_choose_best_pdf` from `download.py`: filter to regular files whose
lowercased name ends in `.pdf`, return `None` if there are none, otherwise
the head of the size-descending stable sort. -/
def _choose_best_pdf (members : List Member) : Option Member :=
  let pdf_members := members.filter (fun m => m.isFile && endsWithPdfLower m.name)
  if pdf_members.isEmpty then none
  else (sortDescBySize pdf_members).head?

/-- What the archive at the temporary path turned out to be: `unopenable`
models `tarfile.open` raising, `archive` a successfully opened tgz with its
member list. -/
inductive TgzSource
  | unopenable
  | archive (members : List Member)
deriving DecidableEq

/-- `_extract_pdf_from_tgz` from `download.py`, with its filesystem write
made explicit: `some bytes` means it returned `True` after writing exactly
`bytes` to the output path; `none` means it returned `False` without
touching the output path (no best member, or `extractfile` gave `None`, or
the archive could not be opened). -/
def _extract_pdf_from_tgz : TgzSource → Option (List Nat)
  | .unopenable => none
  | .archive members =>
    match _choose_best_pdf members with
    | none => none
    | some best => best.content

/-- The body behind a successful `_http_get(..., stream=True)`:
`complete bytes` means `_save_stream_to_file` wrote the whole body;
`broken written` means `iter_content` raised after `written` bytes had been
written to the (already truncated) file. -/
inductive StreamBody
  | complete (bytes : List Nat)
  | broken (written : List Nat)
deriving DecidableEq

/-- Outcome of the archive download to the scoped temporary path:
`streamBroken` models `_save_stream_to_file` raising mid-download (the
temporary directory is discarded either way), `saved` a fully saved archive
file. -/
inductive TgzStream
  | streamBroken
  | saved (src : TgzSource)
deriving DecidableEq

/-- Per-URL network behaviour for one identifier: attempt-indexed outcomes
for the OA resolution GET, the direct-PDF GET, and the TGZ GET. -/
structure NetEnv where
  api : Nat → Except String OaDoc
  pdfBody : Nat → Except String StreamBody
  tgzBody : Nat → Except String TgzStream

/-- The per-identifier outcome, one constructor per `print`/`return` site of
`download_pmc_pdf`. -/
inductive Outcome
  | skipped
  | apiError
  | directOk
  | tgzOk
  | noPdfInTgz
  | tgzError
  | notInOA
deriving DecidableEq

/-- The boolean `download_pmc_pdf` returns for each outcome. -/
def Outcome.isSuccess : Outcome → Bool
  | .skipped => true
  | .directOk => true
  | .tgzOk => true
  | _ => false

/-- `os.path.exists(out_pdf) and os.path.getsize(out_pdf) > 0` on the
modelled output slot. -/
def outExistsNonzero : Option (List Nat) → Bool
  | some bs => !bs.isEmpty
  | none => false

/-- Result of one `download_pmc_pdf` call: returned boolean, which exit path
was taken, the final content of the output slot, the normalized identifier
(the stem of the output filename `<ID>.pdf`), the numeric portion used in
the resolution query (`pmcid.replace('PMC','')`), and how many GET attempts
each of the three URLs received. -/
structure DLResult where
  ok : Bool
  outcome : Outcome
  outFile : Option (List Nat)
  name : List Char
  apiId : List Char
  apiCalls : Nat
  pdfCalls : Nat
  tgzCalls : Nat
deriving DecidableEq

/-- Identifier normalization at the top of `download_pmc_pdf`:
`pmcid.upper().strip()`, then prepend `PMC` unless already present. -/
def normalize_pmcid (s : List Char) : List Char :=
  let p := stripList (upperL s)
  if ("PMC".data).isPrefixOf p then p else "PMC".data ++ p

/-- The `if tgz_url:` block of `download_pmc_pdf` (Case 2), entered with the
current content `cur` of the output slot: fetch the archive to a temporary
path, extract the best PDF to the output path; when no PDF is found inside,
remove the output file iff it exists and has size zero. -/
def tgzPhase (net : NetEnv) (tgz_url : Option (List Char)) (cur : Option (List Nat)) :
    Outcome × Option (List Nat) × Nat :=
  match tgz_url with
  | none => (.notInOA, cur, 0)
  | some _ =>
    let rt := _http_get net.tgzBody
    match rt.1 with
    | .error _ => (.tgzError, cur, rt.2.1)
    | .ok .streamBroken => (.tgzError, cur, rt.2.1)
    | .ok (.saved src) =>
      match _extract_pdf_from_tgz src with
      | some bytes => (.tgzOk, some bytes, rt.2.1)
      | none =>
        let cur2 := if cur = some ([] : List Nat) then none else cur
        (.noPdfInTgz, cur2, rt.2.1)

/-- `download_pmc_pdf` from `download.py` over the modelled filesystem slot
`outFile0` and network `net`: skip when a non-empty output already exists;
resolve via the OA API; try the direct PDF link first (a mid-stream failure
leaves the partially written bytes at the output path and falls through, as
does an exhausted-retries failure, which leaves the slot untouched); then
try the TGZ route; with neither URL, report "not in OA subset". A present
href is modelled as a present URL (Python's truthiness test on the corner
case of an empty href string is not modelled). -/
def download_pmc_pdf (pmcid0 : List Char) (outFile0 : Option (List Nat)) (net : NetEnv) :
    DLResult :=
  let pmcid := normalize_pmcid pmcid0
  let apiId := replaceAll ("PMC".data) [] pmcid
  if outExistsNonzero outFile0 then
    ⟨true, .skipped, outFile0, pmcid, apiId, 0, 0, 0⟩
  else
    let ra := _http_get net.api
    match ra.1 with
    | .error _ => ⟨false, .apiError, outFile0, pmcid, apiId, ra.2.1, 0, 0⟩
    | .ok doc =>
      let pt := _parse_oa_record doc
      match pt.1 with
      | some _ =>
        let rp := _http_get net.pdfBody
        match rp.1 with
        | .ok (.complete bytes) =>
          ⟨true, .directOk, some bytes, pmcid, apiId, ra.2.1, rp.2.1, 0⟩
        | .ok (.broken written) =>
          let t := tgzPhase net pt.2 (some written)
          ⟨t.1.isSuccess, t.1, t.2.1, pmcid, apiId, ra.2.1, rp.2.1, t.2.2⟩
        | .error _ =>
          let t := tgzPhase net pt.2 outFile0
          ⟨t.1.isSuccess, t.1, t.2.1, pmcid, apiId, ra.2.1, rp.2.1, t.2.2⟩
      | none =>
        let t := tgzPhase net pt.2 outFile0
        ⟨t.1.isSuccess, t.1, t.2.1, pmcid, apiId, ra.2.1, 0, t.2.2⟩

lemma http_get_ok1 {α : Type} (f : Nat → Except String α) (a : α) (h1 : f 1 = .ok a) :
    _http_get f = (.ok a, 1, []) := by
  simp [_http_get, MAX_RETRIES, httpGo, h1]

lemma http_get_ok2 {α : Type} (f : Nat → Except String α) (e1 : String) (a : α)
    (h1 : f 1 = .error e1) (h2 : f 2 = .ok a) :
    _http_get f = (.ok a, 2, [RETRY_SLEEP]) := by
  simp [_http_get, MAX_RETRIES, httpGo, h1, h2]

lemma http_get_ok3 {α : Type} (f : Nat → Except String α) (e1 e2 : String) (a : α)
    (h1 : f 1 = .error e1) (h2 : f 2 = .error e2) (h3 : f 3 = .ok a) :
    _http_get f = (.ok a, 3, [RETRY_SLEEP, RETRY_SLEEP]) := by
  simp [_http_get, MAX_RETRIES, httpGo, h1, h2, h3]

lemma http_get_err (α : Type) (f : Nat → Except String α) (e1 e2 e3 : String)
    (h1 : f 1 = .error e1) (h2 : f 2 = .error e2) (h3 : f 3 = .error e3) :
    _http_get f = (.error e3, 3, [RETRY_SLEEP, RETRY_SLEEP]) := by
  simp [_http_get, MAX_RETRIES, httpGo, h1, h2, h3]

lemma http_get_cases {α : Type} (f : Nat → Except String α) :
    _http_get f = (.error "", 0, []) ∨
    (∃ a, _http_get f = (.ok a, 1, [])) ∨
    (∃ a, _http_get f = (.ok a, 2, [RETRY_SLEEP])) ∨
    (∃ a, _http_get f = (.ok a, 3, [RETRY_SLEEP, RETRY_SLEEP])) ∨
    (∃ e, _http_get f = (.error e, 3, [RETRY_SLEEP, RETRY_SLEEP])) := by
  rcases h1 : f 1 with e1 | a1
  · rcases h2 : f 2 with e2 | a2
    · rcases h3 : f 3 with e3 | a3
      · exact Or.inr (Or.inr (Or.inr (Or.inr ⟨e3, http_get_err α f e1 e2 e3 h1 h2 h3⟩)))
      · exact Or.inr (Or.inr (Or.inr (Or.inl ⟨a3, http_get_ok3 f e1 e2 a3 h1 h2 h3⟩)))
    · exact Or.inr (Or.inr (Or.inl ⟨a2, http_get_ok2 f e1 a2 h1 h2⟩))
  · exact Or.inr (Or.inl ⟨a1, http_get_ok1 f a1 h1⟩)

/-- **C7.** `_http_get` performs at most `MAX_RETRIES = 3` GET attempts,
retries on any per-attempt error with the fixed constant delay
`RETRY_SLEEP = 2` between attempts (every recorded sleep equals 2 — no
exponential backoff), returns the first successful attempt's response, and
raises the final attempt's error once all retries are exhausted. -/
theorem C7_http_get_retry_policy :
    MAX_RETRIES = 3 ∧ RETRY_SLEEP = 2 ∧
    ∀ (α : Type) (f : Nat → Except String α),
      (_http_get f).2.1 ≤ MAX_RETRIES ∧
      (∀ d ∈ (_http_get f).2.2, d = RETRY_SLEEP) ∧
      (∀ a, f 1 = .ok a → _http_get f = (.ok a, 1, [])) ∧
      (∀ e1 a, f 1 = .error e1 → f 2 = .ok a →
        _http_get f = (.ok a, 2, [RETRY_SLEEP])) ∧
      (∀ e1 e2 a, f 1 = .error e1 → f 2 = .error e2 → f 3 = .ok a →
        _http_get f = (.ok a, 3, [RETRY_SLEEP, RETRY_SLEEP])) ∧
      (∀ e1 e2 e3, f 1 = .error e1 → f 2 = .error e2 → f 3 = .error e3 →
        _http_get f = (.error e3, 3, [RETRY_SLEEP, RETRY_SLEEP])) := by
  refine ⟨rfl, rfl, ?_⟩
  intro α f
  refine ⟨?_, ?_, ?_, ?_, ?_, ?_⟩
  · rcases http_get_cases f with h | ⟨a, h⟩ | ⟨a, h⟩ | ⟨a, h⟩ | ⟨e, h⟩ <;>
      simp [h, MAX_RETRIES]
  · rcases http_get_cases f with h | ⟨a, h⟩ | ⟨a, h⟩ | ⟨a, h⟩ | ⟨e, h⟩ <;>
      simp [h, RETRY_SLEEP]
  · intro a h1
    exact http_get_ok1 f a h1
  · intro e1 a h1 h2
    exact http_get_ok2 f e1 a h1 h2
  · intro e1 e2 a h1 h2 h3
    exact http_get_ok3 f e1 e2 a h1 h2 h3
  · intro e1 e2 e3 h1 h2 h3
    exact http_get_err α f e1 e2 e3 h1 h2 h3

/-- Concrete instance of C7: first attempt fails, second succeeds; applied
through `C7_http_get_retry_policy`. -/
theorem C7_http_get_retry_policy_witness :
    _http_get (fun n => if n = 1 then Except.error "boom" else Except.ok 5)
      = (Except.ok 5, 2, [RETRY_SLEEP]) :=
  (C7_http_get_retry_policy.2.2 Nat
      (fun n => if n = 1 then Except.error "boom" else Except.ok 5)).2.2.2.1
    "boom" 5 (by rfl) (by rfl)

lemma replaceAllGo_of_not_contains (pat rep : List Char) :
    ∀ (fuel : Nat) (s : List Char), containsPat pat s = false →
      replaceAllGo pat rep fuel s = s := by
  intro fuel
  induction fuel with
  | zero => intro s _; rfl
  | succ n ih =>
    intro s hs
    cases s with
    | nil => rfl
    | cons c rest =>
      simp only [containsPat, Bool.or_eq_false_iff] at hs
      rw [replaceAllGo, if_neg, ih rest hs.2]
      intro hand
      rw [hand.2] at hs
      exact absurd hs.1 (by simp)

lemma replaceAllGo_pat_step (pat rep tail : List Char) (fuel : Nat)
    (hne : pat ≠ []) (h1 : 1 ≤ fuel) :
    replaceAllGo pat rep fuel (pat ++ tail)
      = rep ++ replaceAllGo pat rep (fuel - 1) tail := by
  cases fuel with
  | zero => omega
  | succ n =>
    cases pat with
    | nil => exact absurd rfl hne
    | cons p0 pr =>
      show replaceAllGo (p0 :: pr) rep (n + 1) (p0 :: (pr ++ tail)) = _
      rw [replaceAllGo, if_pos]
      · rw [show p0 :: (pr ++ tail) = (p0 :: pr) ++ tail from rfl, List.drop_left]
        rfl
      · constructor
        · simp
        · rw [List.isPrefixOf_iff_prefix]
          exact List.prefix_append (p0 :: pr) tail

/-- When the remainder after the pattern contains no further occurrence,
Python's replace-all coincides with rewriting just the leading prefix. -/
lemma replaceAll_single (pat rep tail : List Char) (hne : pat ≠ [])
    (htail : containsPat pat tail = false) :
    replaceAll pat rep (pat ++ tail) = rep ++ tail := by
  unfold replaceAll
  rw [replaceAllGo_pat_step pat rep tail _ hne, replaceAllGo_of_not_contains pat rep _ tail htail]
  have : pat.length ≠ 0 := by
    intro h
    exact hne (List.eq_nil_of_length_eq_zero h)
  simp only [List.length_append]
  omega

/-- **C9 counterexample.** The claim says `_ftp_to_https` maps a URL
starting with the FTP host to the identical string with *that prefix*
replaced and the rest of the path unchanged. Python's `str.replace`
substitutes every occurrence, so a URL whose remainder itself contains the
FTP-host string is also rewritten in its tail: the spec-worded rewrite
(`specFtpToHttps`) and the code disagree on this input. -/
theorem C9_ftp_to_https_counterexample :
    _ftp_to_https (ftpHost ++ "/x/".data ++ ftpHost)
        = httpsHost ++ "/x/".data ++ httpsHost ∧
    specFtpToHttps (ftpHost ++ "/x/".data ++ ftpHost)
        = httpsHost ++ "/x/".data ++ ftpHost ∧
    _ftp_to_https (ftpHost ++ "/x/".data ++ ftpHost)
        ≠ specFtpToHttps (ftpHost ++ "/x/".data ++ ftpHost) := by
  refine ⟨by decide, by decide, ?_⟩
  decide

/-- **C9 (amended).** `_ftp_to_https` returns any string not starting with
`ftp://ftp.ncbi.nlm.nih.gov` unchanged; on a string starting with that
prefix it replaces *every* occurrence of the prefix (Python `str.replace`),
which agrees with the claimed rewrite-the-prefix-and-keep-the-rest
behaviour exactly when the remainder contains no further occurrence of the
prefix. -/
theorem C9_ftp_to_https_amended :
    ∀ url : List Char,
      (ftpHost.isPrefixOf url = false → _ftp_to_https url = url) ∧
      (∀ rest, url = ftpHost ++ rest → containsPat ftpHost rest = false →
        _ftp_to_https url = httpsHost ++ rest ∧
        _ftp_to_https url = specFtpToHttps url) := by
  intro url
  constructor
  · intro hnp
    unfold _ftp_to_https
    rw [if_neg]
    simp [hnp]
  · rintro rest rfl hrest
    have hpre : ftpHost.isPrefixOf (ftpHost ++ rest) = true := by
      rw [List.isPrefixOf_iff_prefix]
      exact List.prefix_append ftpHost rest
    have hne : ftpHost ≠ [] := by decide
    constructor
    · unfold _ftp_to_https
      rw [if_pos (by simp [hpre]), replaceAll_single ftpHost httpsHost rest hne hrest]
    · unfold _ftp_to_https specFtpToHttps
      rw [if_pos (by simp [hpre]), if_pos (by simp [hpre]),
        replaceAll_single ftpHost httpsHost rest hne hrest, List.drop_left]

/-- Concrete instance of the amended C9 at a realistic OA href, applied
through `C9_ftp_to_https_amended`. -/
theorem C9_ftp_to_https_amended_witness :
    _ftp_to_https (ftpHost ++ "/pub/pmc/a1.pdf".data)
      = httpsHost ++ "/pub/pmc/a1.pdf".data :=
  (((C9_ftp_to_https_amended (ftpHost ++ "/pub/pmc/a1.pdf".data)).2
    "/pub/pmc/a1.pdf".data rfl (by decide)).1)

/-- A network that always fails; a skip must not consult it at all. -/
def netStub : NetEnv :=
  ⟨fun _ => .error "down", fun _ => .error "down", fun _ => .error "down"⟩

/-- **C2.** When the output file already exists with non-zero size,
`download_pmc_pdf` reports the skipped outcome (returned as success) and
performs zero network calls on every URL: no resolution request and no
content download. -/
theorem C2_skip_no_network (id : List Char) (bs : List Nat) (net : NetEnv)
    (hb : bs ≠ []) :
    download_pmc_pdf id (some bs) net
      = ⟨true, .skipped, some bs, normalize_pmcid id,
          replaceAll ("PMC".data) [] (normalize_pmcid id), 0, 0, 0⟩ := by
  have hne : bs.isEmpty = false := by
    cases bs with
    | nil => exact absurd rfl hb
    | cons b bs => rfl
  simp [download_pmc_pdf, outExistsNonzero, hne]

/-- Concrete instance of C2 applied through `C2_skip_no_network`: a
one-byte pre-existing file is skipped with zero attempts on any URL. -/
theorem C2_skip_no_network_witness :
    download_pmc_pdf ("PMC9".data) (some [1]) netStub
      = ⟨true, .skipped, some [1], "PMC9".data, "9".data, 0, 0, 0⟩ := by
  rw [C2_skip_no_network ("PMC9".data) [1] netStub (by decide)]
  decide

/-- **C8.** When resolution succeeds but yields neither a direct-file URL
nor an archive URL, `download_pmc_pdf` reports failure through the
"not in open-access subset" exit, touches no file, and issues zero
content-download attempts; and a response with no `record` element parses
to `(absent, absent)` rather than raising. -/
theorem C8_not_in_oa_terminal (id : List Char) (w : Option (List Nat)) (net : NetEnv)
    (doc : OaDoc)
    (hskip : outExistsNonzero w = false)
    (hapi : (_http_get net.api).1 = .ok doc)
    (hparse : _parse_oa_record doc = (none, none)) :
    ((download_pmc_pdf id w net).outcome = Outcome.notInOA ∧
      (download_pmc_pdf id w net).ok = false ∧
      (download_pmc_pdf id w net).outFile = w ∧
      (download_pmc_pdf id w net).pdfCalls = 0 ∧
      (download_pmc_pdf id w net).tgzCalls = 0) ∧
    ∀ d : OaDoc, d.record = none → _parse_oa_record d = (none, none) := by
  constructor
  · refine ⟨?_, ?_, ?_, ?_, ?_⟩ <;>
      simp [download_pmc_pdf, tgzPhase, hskip, hapi, hparse, Outcome.isSuccess]
  · intro d hd
    simp [_parse_oa_record, hd]

/-- The resolution document used by the C8 witness: a record exists but
carries no pdf and no tgz link. -/
def docC8 : OaDoc := ⟨some []⟩

/-- The network used by the C8 witness. -/
def netC8 : NetEnv :=
  ⟨fun _ => .ok docC8, fun _ => .error "unused", fun _ => .error "unused"⟩

/-- Concrete instance of C8 applied through `C8_not_in_oa_terminal`. -/
theorem C8_not_in_oa_terminal_witness :
    (download_pmc_pdf ("PMC77".data) none netC8).outcome = Outcome.notInOA ∧
    (download_pmc_pdf ("PMC77".data) none netC8).ok = false ∧
    (download_pmc_pdf ("PMC77".data) none netC8).pdfCalls = 0 ∧
    (download_pmc_pdf ("PMC77".data) none netC8).tgzCalls = 0 := by
  have h := C8_not_in_oa_terminal ("PMC77".data) none netC8 docC8
    (by rfl) (by rfl) (by rfl)
  exact ⟨h.1.1, h.1.2.1, h.1.2.2.2.1, h.1.2.2.2.2⟩

/-- **C5.** With both a direct-file URL and an archive URL present, a
direct download that fails after exhausting all retries falls through to
the archive route instead of aborting, and when the archive route then
succeeds the overall outcome for the identifier is success. -/
theorem C5_direct_fail_archive_fallback (id : List Char) (w : Option (List Nat))
    (net : NetEnv) (doc : OaDoc) (pu tu : List Char) (e : String)
    (src : TgzSource) (bytes : List Nat)
    (hskip : outExistsNonzero w = false)
    (hapi : (_http_get net.api).1 = .ok doc)
    (hparse : _parse_oa_record doc = (some pu, some tu))
    (hpdf : (_http_get net.pdfBody).1 = .error e)
    (htgz : (_http_get net.tgzBody).1 = .ok (.saved src))
    (hext : _extract_pdf_from_tgz src = some bytes) :
    (download_pmc_pdf id w net).ok = true ∧
    (download_pmc_pdf id w net).outcome = Outcome.tgzOk ∧
    (download_pmc_pdf id w net).outFile = some bytes := by
  refine ⟨?_, ?_, ?_⟩ <;>
    simp [download_pmc_pdf, tgzPhase, hskip, hapi, hparse, hpdf, htgz, hext,
      Outcome.isSuccess]

/-- The resolution document used by the C5 witness: both link formats. -/
def docC5 : OaDoc :=
  ⟨some [⟨"pdf", "https://h/f.pdf".data⟩, ⟨"tgz", "https://h/f.tgz".data⟩]⟩

/-- The archive used by the C5 witness: one regular pdf member. -/
def srcC5 : TgzSource :=
  .archive [⟨"art.pdf".data, 9000, true, some [2, 3]⟩]

/-- The network used by the C5 witness: resolution succeeds, every direct
PDF attempt fails, the archive download succeeds. -/
def netC5 : NetEnv :=
  ⟨fun _ => .ok docC5, fun _ => .error "conn reset", fun _ => .ok (.saved srcC5)⟩

/-- Concrete instance of C5 applied through
`C5_direct_fail_archive_fallback`. -/
theorem C5_direct_fail_archive_fallback_witness :
    (download_pmc_pdf ("PMC42".data) none netC5).ok = true ∧
    (download_pmc_pdf ("PMC42".data) none netC5).outcome = Outcome.tgzOk ∧
    (download_pmc_pdf ("PMC42".data) none netC5).outFile = some [2, 3] :=
  C5_direct_fail_archive_fallback ("PMC42".data) none netC5 docC5
    ("https://h/f.pdf".data) ("https://h/f.tgz".data) "conn reset" srcC5 [2, 3]
    (by rfl) (by rfl) (by decide) (by rfl) (by rfl) (by decide)

/-- The resolution document used by the C1 counterexample: only a direct
PDF link, no archive link. -/
def docC1 : OaDoc := ⟨some [⟨"pdf", "https://h/f.pdf".data⟩]⟩

/-- The network used by the C1 counterexample: resolution succeeds, the
direct download's GET succeeds but its stream breaks after one byte has
been written to the output path, and there is no archive URL to recover
with. -/
def netC1 : NetEnv :=
  ⟨fun _ => .ok docC1, fun _ => .ok (.broken [7]), fun _ => .error "unused"⟩

/-- **C1 counterexample.** The claim says no partial file is ever left at
the final output path and that a failed direct-URL download leaves no
partial file there. On this concrete input the direct download's stream
breaks after writing one byte; `download_pmc_pdf` returns failure yet the
non-empty, incomplete byte string is still at the final path (`some [7]`),
because the only cleanup in the code targets zero-byte files on the
archive-no-member route. -/
theorem C1_no_partial_file_counterexample :
    (download_pmc_pdf ("PMC1".data) none netC1).ok = false ∧
    (download_pmc_pdf ("PMC1".data) none netC1).outFile = some [7] ∧
    some ([7] : List Nat) ≠ (none : Option (List Nat)) ∧ ([7] : List Nat) ≠ [] := by
  refine ⟨by decide, by decide, by decide, by decide⟩

/-- **C1 (amended).** The cleanup guarantee holds only in the forms the
code actually implements: (a) on the archive route, when extraction finds
no usable member, a zero-byte file at the output path is removed before
failure is reported, while any other content is left as is; (b) a direct
download that fails all retries without ever streaming (no response body)
leaves the output slot exactly as it was. A direct download that breaks
mid-stream, by contrast, can leave partial bytes at the final path (see the
counterexample). -/
theorem C1_no_partial_file_amended :
    (∀ (id : List Char) (w : Option (List Nat)) (net : NetEnv) (doc : OaDoc)
        (tu : List Char) (src : TgzSource),
      outExistsNonzero w = false →
      (_http_get net.api).1 = .ok doc →
      _parse_oa_record doc = (none, some tu) →
      (_http_get net.tgzBody).1 = .ok (.saved src) →
      _extract_pdf_from_tgz src = none →
      (download_pmc_pdf id w net).outcome = Outcome.noPdfInTgz ∧
      (download_pmc_pdf id w net).outFile
        = (if w = some ([] : List Nat) then none else w)) ∧
    (∀ (id : List Char) (w : Option (List Nat)) (net : NetEnv) (doc : OaDoc)
        (pu : List Char) (e : String),
      outExistsNonzero w = false →
      (_http_get net.api).1 = .ok doc →
      _parse_oa_record doc = (some pu, none) →
      (_http_get net.pdfBody).1 = .error e →
      (download_pmc_pdf id w net).ok = false ∧
      (download_pmc_pdf id w net).outFile = w) := by
  constructor
  · intro id w net doc tu src hskip hapi hparse htgz hext
    refine ⟨?_, ?_⟩ <;>
      simp [download_pmc_pdf, tgzPhase, hskip, hapi, hparse, htgz, hext,
        Outcome.isSuccess]
  · intro id w net doc pu e hskip hapi hparse hpdf
    refine ⟨?_, ?_⟩ <;>
      simp [download_pmc_pdf, tgzPhase, hskip, hapi, hparse, hpdf,
        Outcome.isSuccess]

/-- The resolution document used by the C1 amended witness: archive only. -/
def docC1w : OaDoc := ⟨some [⟨"tgz", "https://h/f.tgz".data⟩]⟩

/-- The network used by the C1 amended witness: the archive opens but holds
no pdf member. -/
def netC1w : NetEnv :=
  ⟨fun _ => .ok docC1w, fun _ => .error "unused",
    fun _ => .ok (.saved (.archive [⟨"notes.txt".data, 10, true, some [9]⟩]))⟩

/-- Concrete instance of the amended C1 applied through
`C1_no_partial_file_amended`: a pre-existing zero-byte output file is
removed when the archive holds no pdf member. -/
theorem C1_no_partial_file_amended_witness :
    (download_pmc_pdf ("PMC8".data) (some []) netC1w).outcome
        = Outcome.noPdfInTgz ∧
    (download_pmc_pdf ("PMC8".data) (some []) netC1w).outFile = none := by
  have h := C1_no_partial_file_amended.1 ("PMC8".data) (some []) netC1w docC1w
    ("https://h/f.tgz".data) (.archive [⟨"notes.txt".data, 10, true, some [9]⟩])
    (by rfl) (by rfl) (by decide) (by rfl) (by decide)
  refine ⟨h.1, ?_⟩
  rw [h.2]
  simp

/-- **C10.** `download_pmc_pdf` normalizes its identifier argument before
any other step: surrounding whitespace is stripped, letters are
upper-cased, and `PMC` is prepended when the stripped, upper-cased string
does not already start with it. In every exit path the output filename stem
is the normalized identifier and the resolution query's numeric portion is
the normalized identifier with `PMC` removed, so `"  pmc123 "`, `"123"` and
`"PMC123"` all target `PMC123.pdf` and the query id `123`. -/
theorem C10_identifier_normalization :
    (∀ s : List Char, normalize_pmcid s =
      (if ("PMC".data).isPrefixOf (upperL (stripList s))
        then upperL (stripList s)
        else "PMC".data ++ upperL (stripList s))) ∧
    (∀ (s : List Char) (w : Option (List Nat)) (net : NetEnv),
      (download_pmc_pdf s w net).name = normalize_pmcid s ∧
      (download_pmc_pdf s w net).apiId
        = replaceAll ("PMC".data) [] (normalize_pmcid s)) ∧
    normalize_pmcid ("  pmc123 ".data) = "PMC123".data ∧
    normalize_pmcid ("123".data) = "PMC123".data ∧
    normalize_pmcid ("PMC123".data) = "PMC123".data ∧
    replaceAll ("PMC".data) [] ("PMC123".data) = "123".data := by
  refine ⟨?_, ?_, by decide, by decide, by decide, by decide⟩
  · intro s
    unfold normalize_pmcid
    rw [stripList_upperL]
  · intro s w net
    constructor <;>
      (simp only [download_pmc_pdf]; repeat' split) <;> rfl

lemma insertDesc_ne_nil (m : Member) (l : List Member) : insertDesc m l ≠ [] := by
  cases l with
  | nil => simp [insertDesc]
  | cons x xs =>
    unfold insertDesc
    split <;> simp

lemma sortDescBySize_eq_nil (l : List Member) (h : sortDescBySize l = []) : l = [] := by
  cases l with
  | nil => rfl
  | cons x xs =>
    exact absurd h (insertDesc_ne_nil x (sortDescBySize xs))

/-- The head of the stable descending sort is the first-encountered element
of maximal recorded size: everything before it in the original order is
strictly smaller, and nothing exceeds it. -/
lemma sortDescBySize_head (l : List Member) :
    ∀ (b : Member) (r : List Member), sortDescBySize l = b :: r →
      (∃ l₁ l₂, l = l₁ ++ b :: l₂ ∧ ∀ m ∈ l₁, m.size < b.size) ∧
      ∀ m ∈ l, m.size ≤ b.size := by
  induction l with
  | nil => intro b r h; simp [sortDescBySize] at h
  | cons x xs ih =>
    intro b r h
    have hstep : sortDescBySize (x :: xs) = insertDesc x (sortDescBySize xs) := rfl
    cases hs : sortDescBySize xs with
    | nil =>
      have hxs : xs = [] := sortDescBySize_eq_nil xs hs
      rw [hstep, hs] at h
      simp only [insertDesc] at h
      injection h with hb hr
      subst hb
      subst hxs
      refine ⟨⟨[], [], by simp, by simp⟩, ?_⟩
      intro m hm
      simp only [List.mem_singleton] at hm
      subst hm
      exact Nat.le_refl _
    | cons b' r' =>
      rw [hstep, hs] at h
      unfold insertDesc at h
      by_cases hle : b'.size ≤ x.size
      · rw [if_pos hle] at h
        injection h with hb hr
        subst hb
        have ihmax := (ih b' r' hs).2
        refine ⟨⟨[], xs, by simp, by simp⟩, ?_⟩
        intro m hm
        rcases List.mem_cons.mp hm with hm | hm
        · subst hm; exact Nat.le_refl _
        · exact Nat.le_trans (ihmax m hm) hle
      · rw [if_neg hle] at h
        injection h with hb hr
        subst hb
        obtain ⟨⟨l₁, l₂, hsplit, hlt⟩, ihmax⟩ := ih b' r' hs
        have hxlt : x.size < b'.size := Nat.lt_of_not_le hle
        refine ⟨⟨x :: l₁, l₂, by rw [hsplit]; rfl, ?_⟩, ?_⟩
        · intro m hm
          rcases List.mem_cons.mp hm with hm | hm
          · subst hm; exact hxlt
          · exact hlt m hm
        · intro m hm
          rcases List.mem_cons.mp hm with hm | hm
          · subst hm; exact Nat.le_of_lt hxlt
          · exact ihmax m hm

/-- **C4.** `_choose_best_pdf` filters archive members to regular files
whose name ends in `.pdf` case-insensitively; with no such member it
returns none, otherwise the first-encountered member of maximal recorded
size (stable descending sort, head); a successful archive extraction's
output equals exactly that member's bytes; and on the spec's example
`{a.pdf: 500, b.pdf: 9000, notes.txt: 1000}` the output is `b.pdf`'s
bytes. -/
theorem C4_archive_best_member :
    (∀ members : List Member,
      (members.filter (fun m => m.isFile && endsWithPdfLower m.name) = [] →
        _choose_best_pdf members = none) ∧
      (∀ chosen, _choose_best_pdf members = some chosen →
        (∃ l₁ l₂,
          members.filter (fun m => m.isFile && endsWithPdfLower m.name)
            = l₁ ++ chosen :: l₂ ∧
          ∀ m ∈ l₁, m.size < chosen.size) ∧
        (∀ m ∈ members.filter (fun m => m.isFile && endsWithPdfLower m.name),
          m.size ≤ chosen.size))) ∧
    (∀ (ms : List Member) (bytes : List Nat),
      _extract_pdf_from_tgz (.archive ms) = some bytes →
      ∃ chosen, _choose_best_pdf ms = some chosen ∧ chosen.content = some bytes) ∧
    _extract_pdf_from_tgz (.archive
      [⟨"a.pdf".data, 500, true, some [65]⟩,
       ⟨"b.pdf".data, 9000, true, some [66]⟩,
       ⟨"notes.txt".data, 1000, true, some [67]⟩]) = some [66] ∧
    endsWithPdfLower ("B.PDF".data) = true := by
  refine ⟨?_, ?_, by decide, by decide⟩
  · intro members
    constructor
    · intro hnil
      unfold _choose_best_pdf
      rw [hnil]
      rfl
    · intro chosen hc
      unfold _choose_best_pdf at hc
      by_cases hemp :
          (members.filter (fun m => m.isFile && endsWithPdfLower m.name)).isEmpty
      · rw [if_pos hemp] at hc
        exact absurd hc (by simp)
      · rw [if_neg hemp] at hc
        cases hs : sortDescBySize
            (members.filter (fun m => m.isFile && endsWithPdfLower m.name)) with
        | nil => rw [hs] at hc; exact absurd hc (by simp)
        | cons b r =>
          rw [hs] at hc
          simp only [List.head?_cons, Option.some.injEq] at hc
          subst hc
          exact sortDescBySize_head _ _ r hs
  · intro ms bytes hx
    simp only [_extract_pdf_from_tgz] at hx
    cases hc : _choose_best_pdf ms with
    | none => simp [hc] at hx
    | some chosen =>
      rw [hc] at hx
      simp only [Option.some.injEq] at hx ⊢
      exact ⟨chosen, rfl, hx⟩

/-- Concrete instance of C4 applied through `C4_archive_best_member`: on
the spec's example the chosen member is `b.pdf` (size 9000), first
element of a decomposition in which everything earlier is strictly
smaller. -/
theorem C4_archive_best_member_witness :
    ∃ l₁ l₂,
      ([⟨"a.pdf".data, 500, true, some [65]⟩,
        ⟨"b.pdf".data, 9000, true, some [66]⟩,
        ⟨"notes.txt".data, 1000, true, some [67]⟩] : List Member).filter
          (fun m => m.isFile && endsWithPdfLower m.name)
        = l₁ ++ (⟨"b.pdf".data, 9000, true, some [66]⟩ : Member) :: l₂ ∧
      ∀ m ∈ l₁, m.size < 9000 :=
  ((C4_archive_best_member.1
      [⟨"a.pdf".data, 500, true, some [65]⟩,
       ⟨"b.pdf".data, 9000, true, some [66]⟩,
       ⟨"notes.txt".data, 1000, true, some [67]⟩]).2
    ⟨"b.pdf".data, 9000, true, some [66]⟩ (by decide)).1

/-- Case-insensitive match of the letter `P` (regex `[Pp]`). -/
def isPch (c : Char) : Bool := c = 'P' || c = 'p'

/-- Case-insensitive match of the letter `M` (regex `[Mm]`). -/
def isMch (c : Char) : Bool := c = 'M' || c = 'm'

/-- Case-insensitive match of the letter `C` (regex `[Cc]`). -/
def isCch (c : Char) : Bool := c = 'C' || c = 'c'

/-- Attempt to match the regex `(PMC\d+)` (IGNORECASE) anchored at the
start of `l`: the three prefix letters in either case followed by at least
one digit; the match extends over the maximal digit run (greedy `\d+`). -/
def pmcMatchAt : List Char → Option (List Char)
  | p :: m :: c :: rest =>
    if isPch p && isMch m && isCch c &&
        (match rest with | d :: _ => d.isDigit | [] => false) then
      some (p :: m :: c :: rest.takeWhile Char.isDigit)
    else none
  | _ => none

/-- `re.search(r"(PMC\d+)", val, re.IGNORECASE)`: the leftmost position at
which the pattern matches wins. -/
def reSearchPmc : List Char → Option (List Char)
  | [] => none
  | c :: rest =>
    match pmcMatchAt (c :: rest) with
    | some s => some s
    | none => reSearchPmc rest

/-- The seen-set loop of `_extract_pmcids_from_values`: for each value, the
first regex match (upper-cased) is emitted unless already seen. -/
def extractGo (seen : List (List Char)) : List (List Char) → List (List Char)
  | [] => []
  | val :: vs =>
    match reSearchPmc val with
    | none => extractGo seen vs
    | some m =>
      let pmcid := upperL m
      if pmcid ∈ seen then extractGo seen vs
      else pmcid :: extractGo (pmcid :: seen) vs

/-- `_extract_pmcids_from_values` from `download.py`. -/
def _extract_pmcids_from_values (values : List (List Char)) : List (List Char) :=
  extractGo [] values

/-- The raw stream of per-value first matches (upper-cased), before
deduplication. -/
def matchStream (values : List (List Char)) : List (List Char) :=
  values.filterMap (fun v => (reSearchPmc v).map upperL)

/-- The final dedup loop of `load_pmcids` (lines 192-197): keep elements
not yet in `seen`, first occurrence wins. -/
def dedupAux (seen : List (List Char)) : List (List Char) → List (List Char)
  | [] => []
  | x :: xs => if x ∈ seen then dedupAux seen xs else x :: dedupAux (x :: seen) xs

/-- "Deduplicate but keep order" over a whole list. -/
def dedupFirst (l : List (List Char)) : List (List Char) := dedupAux [] l

/-- The seen set after the dedup loop has traversed `l` starting from
`seen` (characterised up to membership by `mem_seenAfter`). -/
def seenAfter (seen : List (List Char)) : List (List Char) → List (List Char)
  | [] => seen
  | x :: xs => seenAfter (if x ∈ seen then seen else x :: seen) xs

/-- Modelled from the spec's words for comparison: the sequence of first
occurrences of the distinct elements of `l`, in order of first appearance —
the head, then recursively the distinct first occurrences of the tail with
every copy of the head removed. Fuel-driven for executability; the fuel
(seeded with the length) always suffices. -/
def dfoGo : Nat → List (List Char) → List (List Char)
  | 0, _ => []
  | _ + 1, [] => []
  | fuel + 1, x :: xs =>
    x :: dfoGo fuel (xs.filter (fun b => !(decide (b = x))))

/-- Each distinct element exactly once, in order of first appearance. -/
def distinctFirstOccurrences (l : List (List Char)) : List (List Char) :=
  dfoGo l.length l

/-- The list-comprehension preprocessing of one CSV row in `load_pmcids`:
`[v.strip() for v in row if v and v.strip()]`. -/
def procRow (row : List (List Char)) : List (List Char) :=
  (row.filter (fun v => !v.isEmpty && !(stripList v).isEmpty)).map stripList

/-- `load_pmcids` from `download.py` over already-parsed CSV rows: extend a
running list with each row's extraction (fresh seen set per row), then
deduplicate keeping first-seen order. -/
def load_pmcids (rows : List (List (List Char))) : List (List Char) :=
  dedupFirst (rows.foldl
    (fun acc row => acc ++ _extract_pmcids_from_values (procRow row)) [])

lemma mem_dedupAux (l : List (List Char)) :
    ∀ (seen : List (List Char)) (a : List Char),
      a ∈ dedupAux seen l ↔ a ∈ l ∧ a ∉ seen := by
  induction l with
  | nil => intro seen a; simp [dedupAux]
  | cons x xs ih =>
    intro seen a
    unfold dedupAux
    by_cases hx : x ∈ seen
    · rw [if_pos hx, ih]
      constructor
      · rintro ⟨ha, hna⟩
        exact ⟨List.mem_cons_of_mem x ha, hna⟩
      · rintro ⟨ha, hna⟩
        rcases List.mem_cons.mp ha with rfl | ha
        · exact absurd hx hna
        · exact ⟨ha, hna⟩
    · rw [if_neg hx]
      rw [List.mem_cons, ih]
      constructor
      · rintro (rfl | ⟨ha, hna⟩)
        · exact ⟨List.mem_cons_self a xs, hx⟩
        · refine ⟨List.mem_cons_of_mem x ha, fun hs => hna (List.mem_cons_of_mem x hs)⟩
      · rintro ⟨ha, hna⟩
        by_cases hax : a = x
        · exact Or.inl hax
        · rcases List.mem_cons.mp ha with rfl | ha
          · exact Or.inl rfl
          · refine Or.inr ⟨ha, fun hs => ?_⟩
            rcases List.mem_cons.mp hs with h | h
            · exact hax h
            · exact hna h

lemma dedupAux_congr (l : List (List Char)) :
    ∀ (s t : List (List Char)), (∀ a, a ∈ s ↔ a ∈ t) →
      dedupAux s l = dedupAux t l := by
  induction l with
  | nil => intro s t _; rfl
  | cons x xs ih =>
    intro s t hst
    unfold dedupAux
    by_cases hx : x ∈ s
    · rw [if_pos hx, if_pos ((hst x).mp hx)]
      exact ih s t hst
    · rw [if_neg hx, if_neg (fun ht => hx ((hst x).mpr ht))]
      rw [ih (x :: s) (x :: t) ?_]
      intro a
      rw [List.mem_cons, List.mem_cons, hst a]

lemma dfoGo_fuel (f1 : Nat) :
    ∀ (f2 : Nat) (l : List (List Char)), l.length ≤ f1 → l.length ≤ f2 →
      dfoGo f1 l = dfoGo f2 l := by
  induction f1 with
  | zero =>
    intro f2 l h1 _
    have : l = [] := List.eq_nil_of_length_eq_zero (Nat.le_zero.mp h1)
    subst this
    cases f2 <;> rfl
  | succ n ih =>
    intro f2 l h1 h2
    cases l with
    | nil => cases f2 <;> rfl
    | cons x xs =>
      cases f2 with
      | zero => simp at h2
      | succ m =>
        unfold dfoGo
        rw [ih m (xs.filter (fun b => !(decide (b = x))))
          (Nat.le_trans (List.length_filter_le _ xs) (Nat.lt_succ_iff.mp (Nat.lt_of_lt_of_le (Nat.lt_succ_self _) h1)))
          (Nat.le_trans (List.length_filter_le _ xs) (Nat.lt_succ_iff.mp (Nat.lt_of_lt_of_le (Nat.lt_succ_self _) h2)))]

lemma dfo_cons (x : List Char) (xs : List (List Char)) :
    distinctFirstOccurrences (x :: xs)
      = x :: distinctFirstOccurrences (xs.filter (fun b => !(decide (b = x)))) := by
  unfold distinctFirstOccurrences
  show dfoGo (xs.length + 1) (x :: xs) = _
  rw [dfoGo]
  congr 1
  exact dfoGo_fuel xs.length _ _ (List.length_filter_le _ xs) (Nat.le_refl _)

lemma mem_dfo (n : Nat) :
    ∀ (l : List (List Char)), l.length ≤ n →
      ∀ a, a ∈ distinctFirstOccurrences l ↔ a ∈ l := by
  induction n with
  | zero =>
    intro l h a
    have : l = [] := List.eq_nil_of_length_eq_zero (Nat.le_zero.mp h)
    subst this
    rfl
  | succ m ih =>
    intro l h a
    cases l with
    | nil => rfl
    | cons x xs =>
      rw [dfo_cons, List.mem_cons, List.mem_cons,
        ih _ (Nat.le_trans (List.length_filter_le _ xs) (Nat.succ_le_succ_iff.mp h)) a]
      constructor
      · rintro (rfl | hm)
        · exact Or.inl rfl
        · exact Or.inr (List.mem_of_mem_filter hm)
      · rintro (rfl | hm)
        · exact Or.inl rfl
        · by_cases hax : a = x
          · exact Or.inl hax
          · refine Or.inr (List.mem_filter.mpr ⟨hm, ?_⟩)
            simp [hax]

lemma nodup_dfo (n : Nat) :
    ∀ (l : List (List Char)), l.length ≤ n →
      (distinctFirstOccurrences l).Nodup := by
  induction n with
  | zero =>
    intro l h
    have : l = [] := List.eq_nil_of_length_eq_zero (Nat.le_zero.mp h)
    subst this
    exact List.nodup_nil
  | succ m ih =>
    intro l h
    cases l with
    | nil => exact List.nodup_nil
    | cons x xs =>
      rw [dfo_cons]
      have hlen : (xs.filter (fun b => !(decide (b = x)))).length ≤ m :=
        Nat.le_trans (List.length_filter_le _ xs) (Nat.succ_le_succ_iff.mp h)
      refine List.Nodup.cons ?_ (ih _ hlen)
      intro hx
      have := List.mem_filter.mp ((mem_dfo m _ hlen x).mp hx)
      simp at this

lemma dedupAux_eq_dfo (n : Nat) :
    ∀ (l : List (List Char)), l.length ≤ n →
      ∀ seen, dedupAux seen l
        = distinctFirstOccurrences (l.filter (fun a => !(decide (a ∈ seen)))) := by
  induction n with
  | zero =>
    intro l h seen
    have : l = [] := List.eq_nil_of_length_eq_zero (Nat.le_zero.mp h)
    subst this
    rfl
  | succ m ih =>
    intro l h seen
    cases l with
    | nil => rfl
    | cons x xs =>
      have hxs : xs.length ≤ m := Nat.succ_le_succ_iff.mp h
      unfold dedupAux
      by_cases hx : x ∈ seen
      · rw [if_pos hx, List.filter_cons_of_neg (by simp [hx]), ih xs hxs seen]
      · rw [if_neg hx, List.filter_cons_of_pos (by simp [hx]), dfo_cons,
          List.filter_filter, ih xs hxs (x :: seen)]
        have hpred : List.filter (fun a => !(decide (a ∈ x :: seen))) xs
            = List.filter (fun a => !(decide (a = x)) && !(decide (a ∈ seen))) xs := by
          apply List.filter_congr
          intro a _
          simp [List.mem_cons, Bool.not_or]
        rw [hpred]

lemma isPch_upChar (c : Char) : isPch (upChar c) = isPch c := by
  by_cases hc : c ∈ lowerAbc
  · fin_cases hc <;> decide
  · rw [upChar_not_lower c hc]

lemma isMch_upChar (c : Char) : isMch (upChar c) = isMch c := by
  by_cases hc : c ∈ lowerAbc
  · fin_cases hc <;> decide
  · rw [upChar_not_lower c hc]

lemma isCch_upChar (c : Char) : isCch (upChar c) = isCch c := by
  by_cases hc : c ∈ lowerAbc
  · fin_cases hc <;> decide
  · rw [upChar_not_lower c hc]

lemma upperL_idem (l : List Char) : upperL (upperL l) = upperL l := by
  unfold upperL
  rw [List.map_map]
  congr 1
  funext c
  exact upChar_upChar c

lemma pmcMatchAt_upper (l : List Char) :
    pmcMatchAt (l.map upChar) = (pmcMatchAt l).map upperL := by
  cases l with
  | nil => rfl
  | cons p l1 =>
    cases l1 with
    | nil => rfl
    | cons m l2 =>
      cases l2 with
      | nil => rfl
      | cons c rest =>
        have hdig : (match rest.map upChar with | d :: _ => d.isDigit | [] => false)
            = (match rest with | d :: _ => d.isDigit | [] => false) := by
          cases rest with
          | nil => rfl
          | cons d _ => exact isDigit_upChar d
        show pmcMatchAt (upChar p :: upChar m :: upChar c :: rest.map upChar) = _
        simp only [pmcMatchAt]
        rw [isPch_upChar, isMch_upChar, isCch_upChar, hdig]
        have hcomp : (Char.isDigit ∘ upChar) = Char.isDigit := funext isDigit_upChar
        split
        · simp [upperL, List.takeWhile_map, hcomp]
        · rfl

lemma reSearchPmc_upper (l : List Char) :
    reSearchPmc (l.map upChar) = (reSearchPmc l).map upperL := by
  induction l with
  | nil => rfl
  | cons c rest ih =>
    show reSearchPmc ((c :: rest).map upChar) = _
    rw [List.map_cons]
    unfold reSearchPmc
    rw [show upChar c :: rest.map upChar = (c :: rest).map upChar from rfl,
      pmcMatchAt_upper]
    cases h : pmcMatchAt (c :: rest) with
    | none => simpa using ih
    | some s => simp

lemma matchStream_upper (values : List (List Char)) :
    matchStream (values.map upperL) = matchStream values := by
  unfold matchStream
  rw [List.filterMap_map]
  congr 1
  funext v
  show (reSearchPmc (v.map upChar)).map upperL = _
  rw [reSearchPmc_upper, Option.map_map]
  congr 1
  funext w
  exact upperL_idem w

lemma extractGo_eq_dedupAux (vs : List (List Char)) :
    ∀ seen, extractGo seen vs = dedupAux seen (matchStream vs) := by
  induction vs with
  | nil => intro seen; rfl
  | cons v vs ih =>
    intro seen
    unfold extractGo
    cases h : reSearchPmc v with
    | none =>
      rw [show matchStream (v :: vs) = matchStream vs by
        simp [matchStream, List.filterMap_cons, h]]
      exact ih seen
    | some m =>
      rw [show matchStream (v :: vs) = upperL m :: matchStream vs by
        simp [matchStream, List.filterMap_cons, h]]
      show (if upperL m ∈ seen then extractGo seen vs
            else upperL m :: extractGo (upperL m :: seen) vs)
          = dedupAux seen (upperL m :: matchStream vs)
      unfold dedupAux
      by_cases hm : upperL m ∈ seen
      · rw [if_pos hm, if_pos hm]
        exact ih seen
      · rw [if_neg hm, if_neg hm, ih (upperL m :: seen)]

lemma dedupAux_cons (seen : List (List Char)) (x : List Char) (xs : List (List Char)) :
    dedupAux seen (x :: xs)
      = if x ∈ seen then dedupAux seen xs else x :: dedupAux (x :: seen) xs := rfl

lemma dedupAux_filter_ne (x : List Char) :
    ∀ (l seen : List (List Char)), x ∈ seen →
      dedupAux seen (l.filter (fun b => !(decide (b = x)))) = dedupAux seen l := by
  intro l
  induction l with
  | nil => intro seen _; rfl
  | cons y ys ih =>
    intro seen hx
    by_cases hyx : y = x
    · subst hyx
      rw [List.filter_cons_of_neg (by simp), ih seen hx, dedupAux_cons, if_pos hx]
    · rw [List.filter_cons_of_pos (by simp [hyx]), dedupAux_cons, dedupAux_cons]
      by_cases hys : y ∈ seen
      · rw [if_pos hys, if_pos hys, ih seen hx]
      · rw [if_neg hys, if_neg hys, ih (y :: seen) (List.mem_cons_of_mem y hx)]

lemma dedupAux_dedupAux :
    ∀ (l s t : List (List Char)),
      dedupAux s (dedupAux t l)
        = dedupAux s (l.filter (fun a => !(decide (a ∈ t)))) := by
  intro l
  induction l with
  | nil => intro s t; rfl
  | cons x xs ih =>
    intro s t
    rw [dedupAux_cons t x xs]
    by_cases hxt : x ∈ t
    · rw [if_pos hxt, List.filter_cons_of_neg (by simp [hxt]), ih s t]
    · rw [if_neg hxt, List.filter_cons_of_pos (by simp [hxt])]
      have hsplit : xs.filter (fun a => !(decide (a ∈ x :: t)))
          = (xs.filter (fun a => !(decide (a ∈ t)))).filter
              (fun b => !(decide (b = x))) := by
        rw [List.filter_filter]
        apply List.filter_congr
        intro a _
        simp [List.mem_cons, Bool.not_or]
      rw [dedupAux_cons s x (dedupAux (x :: t) xs),
        dedupAux_cons s x (xs.filter (fun a => !(decide (a ∈ t))))]
      by_cases hxs : x ∈ s
      · rw [if_pos hxs, if_pos hxs, ih s (x :: t), hsplit,
          dedupAux_filter_ne x _ s hxs]
      · rw [if_neg hxs, if_neg hxs, ih (x :: s) (x :: t), hsplit,
          dedupAux_filter_ne x _ (x :: s) (List.mem_cons_self x s)]

lemma seenAfter_cons (s : List (List Char)) (x : List Char) (xs : List (List Char)) :
    seenAfter s (x :: xs) = seenAfter (if x ∈ s then s else x :: s) xs := rfl

lemma mem_seenAfter (l : List (List Char)) :
    ∀ (s : List (List Char)) (a : List Char),
      a ∈ seenAfter s l ↔ a ∈ s ∨ a ∈ l := by
  induction l with
  | nil => intro s a; simp [seenAfter]
  | cons x xs ih =>
    intro s a
    rw [seenAfter_cons, ih]
    by_cases hx : x ∈ s
    · rw [if_pos hx]
      constructor
      · rintro (h | h)
        · exact Or.inl h
        · exact Or.inr (List.mem_cons_of_mem x h)
      · rintro (h | h)
        · exact Or.inl h
        · rcases List.mem_cons.mp h with rfl | h
          · exact Or.inl hx
          · exact Or.inr h
    · rw [if_neg hx]
      constructor
      · rintro (h | h)
        · rcases List.mem_cons.mp h with rfl | h
          · exact Or.inr (List.mem_cons_self a xs)
          · exact Or.inl h
        · exact Or.inr (List.mem_cons_of_mem x h)
      · rintro (h | h)
        · exact Or.inl (List.mem_cons_of_mem x h)
        · rcases List.mem_cons.mp h with rfl | h
          · exact Or.inl (List.mem_cons_self a s)
          · exact Or.inr h

lemma dedupAux_append :
    ∀ (a b s : List (List Char)),
      dedupAux s (a ++ b) = dedupAux s a ++ dedupAux (seenAfter s a) b := by
  intro a
  induction a with
  | nil => intro b s; rfl
  | cons x xs ih =>
    intro b s
    show dedupAux s (x :: (xs ++ b)) = _
    rw [dedupAux_cons s x (xs ++ b), dedupAux_cons s x xs]
    by_cases hx : x ∈ s
    · rw [if_pos hx, if_pos hx, ih b s, seenAfter_cons, if_pos hx]
    · rw [if_neg hx, if_neg hx, ih b (x :: s), seenAfter_cons, if_neg hx]
      rfl

lemma dedupAux_dedupFirst (m : List (List Char)) (s : List (List Char)) :
    dedupAux s (dedupFirst m) = dedupAux s m := by
  unfold dedupFirst
  rw [dedupAux_dedupAux]
  congr 1
  have : ∀ a ∈ m, (!(decide (a ∈ ([] : List (List Char))))) = true := by
    intro a _
    simp
  calc m.filter (fun a => !(decide (a ∈ ([] : List (List Char)))))
      = m.filter (fun _ => true) := List.filter_congr (by intro a _; simp)
    _ = m := List.filter_true m

lemma dedupAux_flatMap_dedup (g : List (List Char) → List (List Char)) :
    ∀ (rows : List (List (List Char))) (s : List (List Char)),
      dedupAux s (rows.flatMap (fun r => dedupFirst (g r)))
        = dedupAux s (rows.flatMap g) := by
  intro rows
  induction rows with
  | nil => intro s; rfl
  | cons r rs ih =>
    intro s
    rw [List.flatMap_cons, List.flatMap_cons, dedupAux_append, dedupAux_append,
      dedupAux_dedupFirst, ih]
    congr 1
    apply dedupAux_congr
    intro a
    rw [mem_seenAfter, mem_seenAfter]
    constructor
    · rintro (h | h)
      · exact Or.inl h
      · have := (mem_dedupAux (g r) [] a).mp (by exact h)
        exact Or.inr this.1
    · rintro (h | h)
      · exact Or.inl h
      · exact Or.inr ((mem_dedupAux (g r) [] a).mpr ⟨h, by simp⟩)

lemma foldl_append_flatMap (g : List (List Char) → List (List Char)) :
    ∀ (rows : List (List (List Char))) (init : List (List Char)),
      rows.foldl (fun acc row => acc ++ g row) init = init ++ rows.flatMap g := by
  intro rows
  induction rows with
  | nil => intro init; simp
  | cons r rs ih =>
    intro init
    rw [List.foldl_cons, ih, List.flatMap_cons, List.append_assoc]

lemma matchStream_flatMap (rows : List (List (List Char))) :
    matchStream (rows.flatMap procRow)
      = rows.flatMap (fun r => matchStream (procRow r)) := by
  induction rows with
  | nil => rfl
  | cons r rs ih =>
    rw [List.flatMap_cons, List.flatMap_cons, ← ih]
    unfold matchStream
    rw [List.filterMap_append]

lemma filter_notmem_nil (l : List (List Char)) :
    l.filter (fun a => !(decide (a ∈ ([] : List (List Char))))) = l := by
  calc l.filter (fun a => !(decide (a ∈ ([] : List (List Char)))))
      = l.filter (fun _ => true) := List.filter_congr (by intro a _; simp)
    _ = l := List.filter_true l

lemma dedupFirst_eq_dfo (l : List (List Char)) :
    dedupFirst l = distinctFirstOccurrences l := by
  unfold dedupFirst
  rw [dedupAux_eq_dfo l.length l (Nat.le_refl _) [], filter_notmem_nil]

lemma mem_matchStream_upper (values : List (List Char)) (x : List Char)
    (hx : x ∈ matchStream values) : upperL x = x := by
  unfold matchStream at hx
  obtain ⟨v, _, hv⟩ := List.mem_filterMap.mp hx
  obtain ⟨m, _, hm⟩ := Option.map_eq_some.mp hv
  rw [← hm]
  exact upperL_idem m

/-- **C3.** The Identifier Extractor emits the per-value first regex
matches, upper-cased, deduplicated with first occurrence winning: its
output is exactly the sequence of distinct first occurrences of the match
stream (each distinct identifier exactly once, in order of first
appearance), contains no duplicates, consists of upper-cased strings, is
unchanged when the whole input is upper-cased (case-insensitive matching),
and values with no embedded identifier contribute nothing; `load_pmcids`
satisfies the same over all cells of all rows. -/
theorem C3_extractor_dedup_order :
    (∀ values : List (List Char),
      _extract_pmcids_from_values values
          = distinctFirstOccurrences (matchStream values) ∧
      (_extract_pmcids_from_values values).Nodup ∧
      (∀ x ∈ _extract_pmcids_from_values values, upperL x = x) ∧
      (∀ x, x ∈ _extract_pmcids_from_values values ↔ x ∈ matchStream values) ∧
      _extract_pmcids_from_values (values.map upperL)
          = _extract_pmcids_from_values values) ∧
    (∀ (v : List Char) (vs : List (List Char)), reSearchPmc v = none →
      _extract_pmcids_from_values (v :: vs) = _extract_pmcids_from_values vs) ∧
    (∀ rows : List (List (List Char)),
      load_pmcids rows
          = distinctFirstOccurrences (matchStream (rows.flatMap procRow)) ∧
      (load_pmcids rows).Nodup ∧
      (∀ x ∈ load_pmcids rows, upperL x = x)) := by
  have hext : ∀ values : List (List Char),
      _extract_pmcids_from_values values = dedupAux [] (matchStream values) :=
    fun values => extractGo_eq_dedupAux values []
  have hmem : ∀ (values : List (List Char)) (x : List Char),
      x ∈ _extract_pmcids_from_values values ↔ x ∈ matchStream values := by
    intro values x
    rw [hext, mem_dedupAux]
    simp
  refine ⟨?_, ?_, ?_⟩
  · intro values
    have h1 : _extract_pmcids_from_values values
        = distinctFirstOccurrences (matchStream values) := by
      rw [hext values]
      exact dedupFirst_eq_dfo (matchStream values)
    refine ⟨h1, ?_, ?_, hmem values, ?_⟩
    · rw [h1]
      exact nodup_dfo (matchStream values).length _ (Nat.le_refl _)
    · intro x hx
      exact mem_matchStream_upper values x ((hmem values x).mp hx)
    · rw [hext, hext, matchStream_upper]
  · intro v vs h
    show extractGo [] (v :: vs) = _
    simp [extractGo, h]
    rfl
  · intro rows
    have hload : load_pmcids rows
        = dedupAux [] (matchStream (rows.flatMap procRow)) := by
      unfold load_pmcids
      rw [foldl_append_flatMap (fun row => _extract_pmcids_from_values (procRow row))
        rows [], List.nil_append]
      have hfun : (fun row => _extract_pmcids_from_values (procRow row))
          = (fun row => dedupFirst (matchStream (procRow row))) := by
        funext row
        exact hext (procRow row)
      unfold dedupFirst
      rw [hfun, dedupAux_flatMap_dedup (fun r => matchStream (procRow r)) rows [],
        ← matchStream_flatMap]
    have h1 : load_pmcids rows
        = distinctFirstOccurrences (matchStream (rows.flatMap procRow)) := by
      rw [hload]
      exact dedupFirst_eq_dfo _
    refine ⟨h1, ?_, ?_⟩
    · rw [h1]
      exact nodup_dfo (matchStream (rows.flatMap procRow)).length _ (Nat.le_refl _)
    · intro x hx
      rw [hload, mem_dedupAux] at hx
      exact mem_matchStream_upper _ x hx.1

/-- Concrete instance of C3 applied through `C3_extractor_dedup_order`: a
value with no embedded identifier contributes nothing. -/
theorem C3_extractor_dedup_order_witness :
    _extract_pmcids_from_values ["hello world".data, "see pmc123 twice PMC123".data]
      = _extract_pmcids_from_values ["see pmc123 twice PMC123".data] :=
  C3_extractor_dedup_order.2.1 ("hello world".data)
    ["see pmc123 twice PMC123".data] (by decide)

/-- The first loop of the orchestrator (`__main__`, lines 216-223): count
identifiers whose output file already exists non-empty as successes
(`ok_count`), queue the rest in order as `to_process`. `preSat` abstracts
the filesystem check `os.path.exists(out_pdf) and os.path.getsize > 0`. -/
def partition_presat (pmcids : List (List Char)) (preSat : List Char → Bool) :
    Nat × List (List Char) :=
  pmcids.foldl
    (fun acc p => if preSat p then (acc.1 + 1, acc.2) else (acc.1, acc.2 ++ [p]))
    (0, [])

/-- The `as_completed` aggregation loop (lines 232-243) over the completion
order `order` of the submitted identifiers: starting from `ok0`
pre-satisfied successes, add each unit's boolean outcome (`result`, which
absorbs worker exceptions as `false`) to the success/failure tallies and
append failures to `missing_pmcids`. -/
def worker_fold (result : List Char → Bool) (order : List (List Char)) (ok0 : Nat) :
    Nat × Nat × List (List Char) :=
  order.foldl
    (fun acc p =>
      if result p then (acc.1 + 1, acc.2.1, acc.2.2)
      else (acc.1, acc.2.1 + 1, acc.2.2 ++ [p]))
    (ok0, 0, [])

/-- The whole orchestrator tally: `(ok_count, fail_count, missing_pmcids)`
after all units complete, where `order` is the nondeterministic completion
order of the worker pool (a permutation of `to_process`). -/
def main_run (pmcids : List (List Char)) (preSat result : List Char → Bool)
    (order : List (List Char)) : Nat × Nat × List (List Char) :=
  worker_fold result order (partition_presat pmcids preSat).1

/-- The lines written to `missing_pmcids.txt` (lines 248-252): a timestamp
header, a counts header, then the failed identifiers one per line. The file
is opened in mode `w`, so this is the full new content regardless of any
previous ledger. -/
def render_ledger (ts : List Char) (requested okc failc : Nat)
    (missing : List (List Char)) : List (List Char) :=
  ("# Missing PMCIDs - generated: ".data ++ ts)
    :: ("# Requested: ".data ++ (toString requested).data
        ++ "  Succeeded: ".data ++ (toString okc).data
        ++ "  Failed: ".data ++ (toString failc).data)
    :: missing

/-- The ledger the orchestrator writes after a full run: requested count is
`len(pmcids)`, the tallies come from `main_run`. -/
def main_ledger (pmcids : List (List Char)) (preSat result : List Char → Bool)
    (order : List (List Char)) (ts : List Char) : List (List Char) :=
  render_ledger ts pmcids.length (main_run pmcids preSat result order).1
    (main_run pmcids preSat result order).2.1
    (main_run pmcids preSat result order).2.2

lemma partition_presat_spec (preSat : List Char → Bool) :
    ∀ (pmcids : List (List Char)) (acc : Nat × List (List Char)),
      pmcids.foldl
        (fun acc p => if preSat p then (acc.1 + 1, acc.2) else (acc.1, acc.2 ++ [p]))
        acc
      = (acc.1 + pmcids.countP preSat,
          acc.2 ++ pmcids.filter (fun p => !(preSat p))) := by
  intro pmcids
  induction pmcids with
  | nil => intro acc; simp [List.countP_nil]
  | cons x xs ih =>
    intro acc
    rw [List.foldl_cons, List.countP_cons]
    by_cases hx : preSat x = true
    · rw [if_pos hx, ih, List.filter_cons_of_neg (by simp [hx])]
      simp [hx]
      omega
    · rw [if_neg hx, ih, List.filter_cons_of_pos (by simp [Bool.not_eq_true] at hx; simp [hx])]
      simp [hx, List.append_assoc]

lemma worker_fold_spec (result : List Char → Bool) :
    ∀ (order : List (List Char)) (acc : Nat × Nat × List (List Char)),
      order.foldl
        (fun acc p =>
          if result p then (acc.1 + 1, acc.2.1, acc.2.2)
          else (acc.1, acc.2.1 + 1, acc.2.2 ++ [p]))
        acc
      = (acc.1 + order.countP result,
          acc.2.1 + order.countP (fun p => !(result p)),
          acc.2.2 ++ order.filter (fun p => !(result p))) := by
  intro order
  induction order with
  | nil => intro acc; simp [List.countP_nil]
  | cons x xs ih =>
    intro acc
    rw [List.foldl_cons, List.countP_cons, List.countP_cons]
    by_cases hx : result x = true
    · rw [if_pos hx, ih, List.filter_cons_of_neg (by simp [hx])]
      simp [hx]
      omega
    · rw [if_neg hx, ih, List.filter_cons_of_pos (by simp [Bool.not_eq_true] at hx; simp [hx])]
      simp [hx, List.append_assoc]
      omega

lemma countP_add_not (p : List Char → Bool) (l : List (List Char)) :
    l.countP p + l.countP (fun a => !(p a)) = l.length := by
  induction l with
  | nil => simp
  | cons x xs ih =>
    rw [List.countP_cons, List.countP_cons, List.length_cons]
    by_cases h : p x = true
    · simp [h]
      omega
    · have hf : p x = false := by rwa [Bool.not_eq_true] at h
      simp [hf]
      omega

/-- **C6.** After all submitted units complete (in any completion order
`order`, a permutation of the queued identifiers), the orchestrator
unconditionally rewrites the ledger (same rendered content whatever was
there before, even when the failure list is empty): Requested equals the
number N of loaded identifiers, Succeeded equals the pre-satisfied count K
plus the new successes, Failed equals N - Succeeded, and the rendered
ledger is the two header lines followed by exactly the failed identifiers
one per line, N - Succeeded of them. -/
theorem C6_run_ledger_counts (pmcids : List (List Char))
    (preSat result : List Char → Bool) (order : List (List Char)) (ts : List Char)
    (hperm : order.Perm ((partition_presat pmcids preSat).2)) :
    (main_run pmcids preSat result order).1
        = pmcids.countP preSat
          + ((partition_presat pmcids preSat).2).countP result ∧
    (main_run pmcids preSat result order).2.1
        = pmcids.length - (main_run pmcids preSat result order).1 ∧
    (main_run pmcids preSat result order).2.2
        = order.filter (fun p => !(result p)) ∧
    (main_run pmcids preSat result order).2.2.length
        = pmcids.length - (main_run pmcids preSat result order).1 ∧
    main_ledger pmcids preSat result order ts
      = ("# Missing PMCIDs - generated: ".data ++ ts)
          :: ("# Requested: ".data ++ (toString pmcids.length).data
              ++ "  Succeeded: ".data
              ++ (toString (main_run pmcids preSat result order).1).data
              ++ "  Failed: ".data
              ++ (toString (main_run pmcids preSat result order).2.1).data)
          :: (main_run pmcids preSat result order).2.2 := by
  have hpart : partition_presat pmcids preSat
      = (pmcids.countP preSat, pmcids.filter (fun p => !(preSat p))) := by
    unfold partition_presat
    rw [partition_presat_spec preSat pmcids (0, [])]
    simp
  have hrun : main_run pmcids preSat result order
      = (pmcids.countP preSat + order.countP result,
          order.countP (fun p => !(result p)),
          order.filter (fun p => !(result p))) := by
    unfold main_run worker_fold
    rw [worker_fold_spec result order ((partition_presat pmcids preSat).1, 0, [])]
    rw [hpart]
    simp
  have hS : order.countP result
      = ((partition_presat pmcids preSat).2).countP result :=
    hperm.countP_eq result
  have hlen : order.length = ((partition_presat pmcids preSat).2).length :=
    hperm.length_eq
  have htp : ((partition_presat pmcids preSat).2).length
      = pmcids.length - pmcids.countP preSat := by
    rw [hpart]
    show (pmcids.filter (fun p => !(preSat p))).length = _
    have h1 := countP_add_not preSat pmcids
    have h2 := List.countP_eq_length_filter (fun p => !(preSat p)) pmcids
    omega
  have hfail : order.countP (fun p => !(result p))
      = order.length - order.countP result := by
    have := countP_add_not result order
    omega
  have hKle : pmcids.countP preSat ≤ pmcids.length := List.countP_le_length preSat
  have hSle : order.countP result ≤ order.length := List.countP_le_length result
  have hr1 : (main_run pmcids preSat result order).1
      = pmcids.countP preSat + order.countP result := by rw [hrun]
  have hr2 : (main_run pmcids preSat result order).2.1
      = order.countP (fun p => !(result p)) := by rw [hrun]
  have hr3 : (main_run pmcids preSat result order).2.2
      = order.filter (fun p => !(result p)) := by rw [hrun]
  refine ⟨?_, ?_, ?_, ?_, ?_⟩
  · rw [hr1, hS]
  · rw [hr2, hr1]
    omega
  · exact hr3
  · rw [hr3, hr1, ← List.countP_eq_length_filter]
    omega
  · unfold main_ledger render_ledger
    rfl

/-- Identifiers for the C6 witness. -/
def pmcsW : List (List Char) := ["PMC1".data, "PMC2".data, "PMC3".data]

/-- Pre-satisfied check for the C6 witness: only `PMC1` already on disk. -/
def preSatW (p : List Char) : Bool := p = "PMC1".data

/-- Worker outcomes for the C6 witness: `PMC2` succeeds, `PMC3` fails. -/
def resultW (p : List Char) : Bool := p = "PMC2".data

/-- Completion order for the C6 witness: the reverse of submission order
(a genuine permutation of the queued identifiers). -/
def orderW : List (List Char) := ["PMC3".data, "PMC2".data]

/-- Concrete instance of C6 applied through `C6_run_ledger_counts`:
N = 3, K = 1, one new success, one failure, ledger lists exactly `PMC3`. -/
theorem C6_run_ledger_counts_witness :
    (main_run pmcsW preSatW resultW orderW).1 = 2 ∧
    (main_run pmcsW preSatW resultW orderW).2.1 = 1 ∧
    (main_run pmcsW preSatW resultW orderW).2.2 = ["PMC3".data] := by
  have h := C6_run_ledger_counts pmcsW preSatW resultW orderW ("now".data) (by decide)
  refine ⟨?_, ?_, ?_⟩
  · rw [h.1]
    decide
  · rw [h.2.1, h.1]
    decide
  · rw [h.2.2.1]
    decide
